import Mathlib

/-!
DynaMix: mixin buffer layout, selection of lifecycle procedures, mutation rules.

A shallow embedding of
* include/dynamix/allocators.hpp (internal::next_multiple,
  mixin_allocator::mem_size_for_mixin, mixin_allocator::mixin_offset),
* include/dynamix/mixin_type_info.hpp (the get_mixin_xxx selectors),
* the mutation rules declared in include/dynamix/common_mutation_rules.hpp.

The types size_t and uintptr_t are unsigned machine words.  They are represented
by natural numbers below 2 ^ w, where w is the width of the word in bits, and
every C++ operator on them is followed by a reduction modulo 2 ^ w.  The
constant sizeof(object*) depends on the platform; it is the parameter P.
-/
namespace dynamix

/-! Unsigned word arithmetic. -/

/-- Unsigned addition on `w`-bit words (`x + y` on `size_t`). -/
def size_add (w x y : Nat) : Nat := (x + y) % 2 ^ w

/-- Unsigned subtraction on `w`-bit words (`x - y` on `size_t`): the result
wraps around when `y` exceeds `x`. -/
def size_sub (w x y : Nat) : Nat := (x + (2 ^ w - y % 2 ^ w)) % 2 ^ w

/-- Unsigned multiplication on `w`-bit words (`x * y` on `size_t`). -/
def size_mul (w x y : Nat) : Nat := (x * y) % 2 ^ w

/-! The file allocators.hpp. -/

namespace internal

/-- The function `internal::next_multiple`:
`return ((s + n - 1) / n) * n;` evaluated left to right on `size_t`.
Division by `n = 0` is undefined in C++; every statement below has `0 < n`. -/
def next_multiple (w s n : Nat) : Nat :=
  size_mul w (size_sub w (size_add w s n) 1 / n) n

end internal

/-- The function `mixin_allocator::mem_size_for_mixin`, with `P` standing for
`sizeof(object*)`. -/
def mem_size_for_mixin (w P mixin_size mixin_alignment : Nat) : Nat :=
  let mem_size := internal.next_multiple w P mixin_alignment
  let mem_size := size_add w mem_size mixin_size
  let mem_size := internal.next_multiple w mem_size P
  mem_size

/-- The function `mixin_allocator::mixin_offset`, with `P` standing for
`sizeof(object*)` and `buffer` for the address `uintptr_t(buffer)`.  The
function begins with the assertion
`uintptr_t(buffer) % sizeof(object*) == 0`; the macro `I_DYNAMIX_ASSERT_MSG` is
defined outside the sources at hand and the build with assertions enabled is
taken: on a buffer that is not aligned to the pointer size the assertion fails,
the program aborts and no offset is returned (`none`). -/
def mixin_offset (w P buffer mixin_alignment : Nat) : Option Nat :=
  if buffer % P = 0 then
    let mixin_pos := internal.next_multiple w (size_add w buffer P) mixin_alignment
    some (size_sub w mixin_pos buffer)
  else none

/-- The rounding up that section 4.2 of the spec names, written without
reference to the code: the least multiple of `n` that is at least `s`, as a
natural number. -/
def round_up (s n : Nat) : Nat :=
  if s % n = 0 then s else s + (n - s % n)

/-! The file mixin_type_info.hpp. -/

/-- The type traits of a mixin class that the `get_mixin_*` templates test with
`std::enable_if`. -/
structure mixin_traits where
  is_copy_constructible : Bool
  is_copy_assignable : Bool
  is_move_constructible : Bool
  is_move_assignable : Bool
deriving DecidableEq

/-- A value of type `mixin_copy_proc` or `mixin_move_proc`: `nullptr` or the
address of one of the `call_mixin_*` procedures. -/
inductive mixin_proc where
  | nullptr
  | call_mixin_copy_constructor
  | call_mixin_copy_assignment
  | call_mixin_move_constructor
  | call_mixin_move_assignment
deriving DecidableEq

/-- One function template of an overload set: the condition of its
`std::enable_if` return type and the value its body returns. -/
structure overload where
  enabled : mixin_traits → Bool
  returns : mixin_proc

/-- Outcome of the call `get_mixin_xxx<Mixin>()`.  The overloads of a set have
identical parameter lists and differ only in their `enable_if` condition, so the
call is well formed exactly when one condition holds. -/
inductive call_result where
  | selected (p : mixin_proc)
  | no_matching_function
  | ambiguous_call
deriving DecidableEq

/-- Overload resolution over templates that SFINAE removes when their condition
is false. -/
def resolve_call (candidates : List overload) (t : mixin_traits) : call_result :=
  match candidates.filter (fun o => o.enabled t) with
  | [] => call_result.no_matching_function
  | [o] => call_result.selected o.returns
  | _ :: _ :: _ => call_result.ambiguous_call

namespace internal

/-- The two templates `internal::get_mixin_copy_constructor`. -/
def get_mixin_copy_constructor (t : mixin_traits) : call_result :=
  resolve_call
    [ overload.mk (fun t => t.is_copy_constructible) mixin_proc.call_mixin_copy_constructor,
      overload.mk (fun t => !t.is_copy_constructible) mixin_proc.nullptr ] t

/-- The two templates `internal::get_mixin_copy_assignment`. -/
def get_mixin_copy_assignment (t : mixin_traits) : call_result :=
  resolve_call
    [ overload.mk (fun t => t.is_copy_assignable) mixin_proc.call_mixin_copy_assignment,
      overload.mk (fun t => !t.is_copy_assignable) mixin_proc.nullptr ] t

/-- The two templates `internal::get_mixin_move_constructor`. -/
def get_mixin_move_constructor (t : mixin_traits) : call_result :=
  resolve_call
    [ overload.mk (fun t => t.is_move_constructible) mixin_proc.call_mixin_move_constructor,
      overload.mk (fun t => !t.is_move_constructible) mixin_proc.nullptr ] t

/-- The two templates `internal::get_mixin_move_assignment`.  The first is
enabled by `std::is_move_assignable<Mixin>`, the second by
`!std::is_move_constructible<Mixin>`, as in the source. -/
def get_mixin_move_assignment (t : mixin_traits) : call_result :=
  resolve_call
    [ overload.mk (fun t => t.is_move_assignable) mixin_proc.call_mixin_move_assignment,
      overload.mk (fun t => !t.is_move_constructible) mixin_proc.nullptr ] t

end internal

/-! The file common_mutation_rules.hpp. -/

/-- Ids of registered mixins (`mixin_id`). -/
abbrev mixin_id := Nat

/-- Modelled from the spec: the mutation rules.  `common_mutation_rules.hpp`
declares the classes `mandatory_mixin`, `deprecated_mixin`,
`mutually_exclusive_mixins`, `bundled_mixins` and `dependent_mixins`; the bodies
of their `apply_to` are not part of the sources at hand. -/
inductive mutation_rule where
  | mandatory_mixin (id : mixin_id)
  | deprecated_mixin (id : mixin_id)
  | mutually_exclusive_mixins (mixins : Finset mixin_id)
  | bundled_mixins (mixins : Finset mixin_id)
  | dependent_mixins (master_id : mixin_id) (mixins : Finset mixin_id)

/-- Modelled from the spec: the member of a mutually exclusive set that was
requested to be added most recently, `adds` being in request order. -/
def last_added (mixins : Finset mixin_id) (adds : List mixin_id) : Option mixin_id :=
  (adds.filter (fun x => x ∈ mixins)).getLast?

/-- Modelled from the spec: `apply_to`, one rule acting on the working set of a
mutation whose explicit requests are `adds` and `removes` (section 4.4).
* mandatory: ensures the mixin is present;
* deprecated: ensures the mixin is absent;
* mutually exclusive: when more than one member is present, keeps the member
  requested to be added most recently and drops the rest (the spec names no
  member to keep when none was requested; the set is then left as it is);
* bundled: if a member is added, adds all members; if a member is removed,
  removes all members;
* dependent: adding the master adds all dependencies, removing the master
  removes them; requests on a dependency alone have no further effect. -/
def mutation_rule.apply_to (adds removes : List mixin_id) :
    mutation_rule → Finset mixin_id → Finset mixin_id
  | mutation_rule.mandatory_mixin id, ws => insert id ws
  | mutation_rule.deprecated_mixin id, ws => ws.erase id
  | mutation_rule.mutually_exclusive_mixins mixins, ws =>
      if 1 < (ws.filter (fun x => x ∈ mixins)).card then
        match last_added mixins adds with
        | some keep => ws.filter (fun x => x ∉ mixins ∨ x = keep)
        | none => ws
      else ws
  | mutation_rule.bundled_mixins mixins, ws =>
      let ws1 := if ∃ x ∈ adds, x ∈ mixins then ws ∪ mixins else ws
      if ∃ x ∈ removes, x ∈ mixins then ws1 \ mixins else ws1
  | mutation_rule.dependent_mixins master_id mixins, ws =>
      let ws1 := if master_id ∈ adds then ws ∪ mixins else ws
      if master_id ∈ removes then ws1 \ mixins else ws1

/-- Modelled from the spec: one pass of the working set through every active
rule in registration order; the flag tells whether any rule produced a change. -/
def run_pass (adds removes : List mixin_id) :
    List mutation_rule → Finset mixin_id → Finset mixin_id × Bool
  | [], ws => (ws, false)
  | r :: rs, ws =>
      let ws1 := r.apply_to adds removes ws
      let res := run_pass adds removes rs ws1
      (res.1, decide (ws1 ≠ ws) || res.2)

/-- Modelled from the spec: the fixpoint iteration of section 4.4.  The pass is
run again after any rule produced a change; the iteration ends with the working
set when a full pass produces no change and fails (`none`, the configuration
error) when `max_passes` passes did not reach that point. -/
def resolve (rules : List mutation_rule) (adds removes : List mixin_id) :
    Nat → Finset mixin_id → Option (Finset mixin_id)
  | 0, _ => none
  | max_passes + 1, ws =>
      let res := run_pass adds removes rules ws
      if res.2 then resolve rules adds removes max_passes res.1 else some res.1

/-- Modelled from the spec: `mutate(object, adds, removes)`.  The mutation is the
mixin set of the object with the requested additions and removals applied
(section 3); it is then resolved through the rules.  The bound on the number of
passes is not given by the spec and is the parameter `max_passes`. -/
def mutate (rules : List mutation_rule) (max_passes : Nat) (object : Finset mixin_id)
    (adds removes : List mixin_id) : Option (Finset mixin_id) :=
  resolve rules adds removes max_passes ((object ∪ adds.toFinset) \ removes.toFinset)

/-- Modelled from the spec: a sequence of mutations applied to an object one
after the other, each from the state the previous one committed. -/
def mutate_all (rules : List mutation_rule) (max_passes : Nat) :
    Finset mixin_id → List (List mixin_id × List mixin_id) → Option (Finset mixin_id)
  | object, [] => some object
  | object, m :: ms =>
      match mutate rules max_passes object m.1 m.2 with
      | some s => mutate_all rules max_passes s ms
      | none => none

/-! Message dispatch: the call tables of a composed type. -/

/-- Ids of registered messages. -/
abbrev message_id := Nat

/-- Modelled from the spec: one message binding of a mixin, the element type
`message_for_mixin` of `mixin_type_info::message_infos`, whose declaration
(message.hpp) is not part of the sources at hand.  It holds the mixin that owns
the binding, the message, the declared priority and the entry point. -/
structure message_for_mixin where
  mixin : mixin_id
  message : message_id
  priority : Int
  caller : Nat
deriving DecidableEq

/-- Modelled from the spec: a binding enters a call table that is ordered by
descending priority in front of the first entry whose priority is not higher
than its own (section 4.3; the code that builds the tables is not part of the
sources at hand). -/
def insert_binding (b : message_for_mixin) : List message_for_mixin → List message_for_mixin
  | [] => [b]
  | c :: cs => if c.priority ≤ b.priority then b :: c :: cs else c :: insert_binding b cs

/-- Modelled from the spec: bindings given in registration order, put in the
order of a call table: descending declared priority and, for ties, ascending
registration order. -/
def order_bindings : List message_for_mixin → List message_for_mixin
  | [] => []
  | b :: bs => insert_binding b (order_bindings bs)

/-- Modelled from the spec: the bindings collected for a message in a composed
type, in registration order: those of `registry` (all bindings, in the order
they were registered) whose owning mixin is one of the mixins of the type and
implements the message. -/
def implementers (registry : List message_for_mixin) (type_mixins : Finset mixin_id)
    (msg : message_id) : List message_for_mixin :=
  registry.filter (fun b => b.message = msg ∧ b.mixin ∈ type_mixins)

/-- Modelled from the spec: the call table of a message in a composed type
(section 4.3). -/
def call_table (registry : List message_for_mixin) (type_mixins : Finset mixin_id)
    (msg : message_id) : List message_for_mixin :=
  order_bindings (implementers registry type_mixins msg)

/-- Modelled from the spec: a unicast send invokes the first entry of the call
table; when the table is absent the send fails (section 4.5). -/
def send_unicast (registry : List message_for_mixin) (type_mixins : Finset mixin_id)
    (msg : message_id) : Option message_for_mixin :=
  (call_table registry type_mixins msg).head?


open internal

/-! Rounding up in the natural numbers. -/

theorem ceil_dvd (s n : Nat) : n ∣ (s + n - 1) / n * n :=
  Dvd.intro_left _ rfl

theorem ceil_ge (s n : Nat) (hn : 0 < n) : s ≤ (s + n - 1) / n * n := by
  have h1 := Nat.div_add_mod (s + n - 1) n
  have h2 := Nat.mod_lt (s + n - 1) hn
  rw [Nat.mul_comm] at h1
  omega

theorem ceil_lt (s n : Nat) (hn : 0 < n) : (s + n - 1) / n * n < s + n := by
  have h1 := Nat.div_mul_le_self (s + n - 1) n
  omega

theorem ceil_le_of_dvd (s n m : Nat) (hn : 0 < n) (hm : n ∣ m) (hs : s ≤ m) :
    (s + n - 1) / n * n ≤ m := by
  obtain ⟨j, rfl⟩ := hm
  have h : (s + n - 1) / n ≤ j := by
    apply Nat.le_of_lt_succ
    rw [Nat.div_lt_iff_lt_mul hn]
    have : j.succ * n = n * j + n := by rw [Nat.succ_mul, Nat.mul_comm]
    omega
  calc (s + n - 1) / n * n ≤ j * n := Nat.mul_le_mul_right n h
    _ = n * j := Nat.mul_comm j n

theorem ceil_eq_of_dvd (s n : Nat) (hn : 0 < n) (hs : n ∣ s) :
    (s + n - 1) / n * n = s :=
  Nat.le_antisymm (ceil_le_of_dvd s n s hn hs (Nat.le_refl s)) (ceil_ge s n hn)

theorem ceil_add_of_dvd (s t n : Nat) (hn : 0 < n) (ht : n ∣ t) :
    (s + t + n - 1) / n * n = (s + n - 1) / n * n + t := by
  obtain ⟨j, rfl⟩ := ht
  have h : s + n * j + n - 1 = s + n - 1 + n * j := by omega
  rw [h, Nat.add_mul_div_left _ _ hn, Nat.add_mul, Nat.mul_comm j n]

/-! Facts on machine words. -/

theorem mod_lt_two_mul (x M : Nat) (h : x < 2 * M) :
    (x < M ∧ x % M = x) ∨ (M ≤ x ∧ x % M = x - M) := by
  rcases Nat.lt_or_ge x M with hx | hx
  · exact Or.inl ⟨hx, Nat.mod_eq_of_lt hx⟩
  · right
    refine ⟨hx, ?_⟩
    rw [Nat.mod_eq_sub_mod hx]
    exact Nat.mod_eq_of_lt (by omega)

theorem pow2_add_le (w k p : Nat) (hk : k < w) (hp : p < w) : 2 ^ k + 2 ^ p ≤ 2 ^ w := by
  obtain ⟨v, rfl⟩ : ∃ v, w = v + 1 := ⟨w - 1, by omega⟩
  have h1 : 2 ^ k ≤ 2 ^ v := Nat.pow_le_pow_right (by decide) (by omega)
  have h2 : 2 ^ p ≤ 2 ^ v := Nat.pow_le_pow_right (by decide) (by omega)
  have h3 : 2 ^ (v + 1) = 2 ^ v + 2 ^ v := by rw [pow_succ]; ring
  omega

theorem pow2_dvd_or (k p : Nat) : 2 ^ k ∣ 2 ^ p ∨ 2 ^ p ∣ 2 ^ k := by
  rcases Nat.le_total k p with h | h
  · exact Or.inl (Nat.pow_dvd_pow 2 h)
  · exact Or.inr (Nat.pow_dvd_pow 2 h)

/-- The wrapped `s + n - 1` is `s + n - 1` reduced modulo the word size. -/
theorem size_sub_add_one (w s n : Nat) (hn : 0 < n) :
    size_sub w (size_add w s n) 1 = (s + n - 1) % 2 ^ w := by
  unfold size_sub size_add
  have hM : 0 < 2 ^ w := Nat.two_pow_pos w
  rcases Nat.eq_or_lt_of_le (Nat.succ_le_of_lt hM) with h1 | h1
  · rw [← h1]; simp [Nat.mod_one]
  · have h2 : 1 % 2 ^ w = 1 := Nat.mod_eq_of_lt h1
    rw [h2, Nat.mod_add_mod]
    have h3 : s + n + (2 ^ w - 1) = s + n - 1 + 2 ^ w := by omega
    rw [h3, Nat.add_mod_right]

/-- No overflow: `next_multiple` is the plain rounding up. -/
theorem next_multiple_of_lt (w s n : Nat) (hn : 0 < n) (h : s + n - 1 < 2 ^ w) :
    next_multiple w s n = (s + n - 1) / n * n := by
  unfold next_multiple
  rw [size_sub_add_one w s n hn, Nat.mod_eq_of_lt h]
  unfold size_mul
  exact Nat.mod_eq_of_lt (Nat.lt_of_le_of_lt (Nat.div_mul_le_self _ _) h)

/-- The result of `next_multiple` is always a multiple of `n`. -/
theorem dvd_next_multiple (w s n : Nat) : n ∣ next_multiple w s n := by
  unfold next_multiple size_mul
  have hM : 0 < 2 ^ w := Nat.two_pow_pos w
  have h1 : size_sub w (size_add w s n) 1 < 2 ^ w := Nat.mod_lt _ hM
  rw [Nat.mod_eq_of_lt (Nat.lt_of_le_of_lt (Nat.div_mul_le_self _ _) h1)]
  exact Dvd.intro_left _ rfl

/-- When `n` divides the word modulus, `next_multiple` is the rounding up
reduced modulo the word size, overflow or not. -/
theorem next_multiple_of_dvd (w s n : Nat) (hn : 0 < n) (hd : n ∣ 2 ^ w) (hs : s < 2 ^ w) :
    next_multiple w s n = ((s + n - 1) / n * n) % 2 ^ w := by
  have hM : 0 < 2 ^ w := Nat.two_pow_pos w
  have hnM : n ≤ 2 ^ w := Nat.le_of_dvd hM hd
  unfold next_multiple
  rw [size_sub_add_one w s n hn]
  unfold size_mul
  rcases mod_lt_two_mul (s + n - 1) (2 ^ w) (by omega) with ⟨h1, h2⟩ | ⟨h1, h2⟩
  · rw [h2]
  · rw [h2]
    obtain ⟨q, hq⟩ := hd
    have h3 : (s + n - 1 - 2 ^ w) / n = (s + n - 1) / n - q := by
      rw [hq, Nat.sub_mul_div _ _ _ (by rw [← hq]; exact h1)]
    have h4 : q ≤ (s + n - 1) / n := by
      rw [Nat.le_div_iff_mul_le hn, Nat.mul_comm, ← hq]; exact h1
    have h5 : (s + n - 1) / n * n = ((s + n - 1) / n - q) * n + 2 ^ w := by
      rw [Nat.sub_mul, hq, Nat.mul_comm q n]
      have : n * q ≤ (s + n - 1) / n * n := by
        rw [Nat.mul_comm n q]; exact Nat.mul_le_mul_right n h4
      omega
    rw [h3, h5, Nat.add_mod_right]


/-- On a buffer aligned to the pointer size the assertion holds and the offset
is returned. -/
theorem mixin_offset_aligned (w P b a : Nat) (h : b % P = 0) :
    mixin_offset w P b a = some (size_sub w (next_multiple w (size_add w b P) a) b) := by
  unfold mixin_offset
  rw [if_pos h]

/-- The rounding up computed by division is the rounding up of the spec. -/
theorem ceil_eq_round_up (s n : Nat) (hn : 0 < n) : (s + n - 1) / n * n = round_up s n := by
  unfold round_up
  by_cases h : s % n = 0
  · rw [if_pos h]
    exact ceil_eq_of_dvd s n hn (Nat.dvd_of_mod_eq_zero h)
  · rw [if_neg h]
    have hlt := Nat.mod_lt s hn
    have hdm := Nat.div_add_mod s n
    have hd : n ∣ s + (n - s % n) := by
      refine ⟨s / n + 1, ?_⟩
      rw [Nat.mul_add, Nat.mul_one]
      omega
    have h1 := ceil_le_of_dvd s n (s + (n - s % n)) hn hd (by omega)
    have h2 := ceil_ge s n hn
    have h3 : n ∣ s + (n - s % n) - (s + n - 1) / n * n := Nat.dvd_sub' hd (ceil_dvd s n)
    have h4 := Nat.eq_zero_of_dvd_of_lt h3 (by omega)
    omega

/-- When the alignment divides the word modulus, the offset is the pointer size
plus the distance from the (wrapped) address `buffer + P` up to the next
multiple of the alignment, overflow or not. -/
theorem offset_value_of_dvd (w P b a : Nat) (ha : 0 < a) (hd : a ∣ 2 ^ w)
    (haP : a + P ≤ 2 ^ w) (hb : b < 2 ^ w) :
    size_sub w (next_multiple w (size_add w b P) a) b
      = ((b + P) % 2 ^ w + a - 1) / a * a - (b + P) % 2 ^ w + P := by
  have hM : 0 < 2 ^ w := Nat.two_pow_pos w
  have hy : (b + P) % 2 ^ w < 2 ^ w := Nat.mod_lt _ hM
  simp only [size_add]
  rw [next_multiple_of_dvd w _ a ha hd hy]
  unfold size_sub
  rw [Nat.mod_eq_of_lt hb]
  have h1 := ceil_ge ((b + P) % 2 ^ w) a ha
  have h2 := ceil_lt ((b + P) % 2 ^ w) a ha
  have h3 := ceil_le_of_dvd ((b + P) % 2 ^ w) a (2 ^ w) ha hd (Nat.le_of_lt hy)
  generalize ((b + P) % 2 ^ w + a - 1) / a * a = c at h1 h2 h3 ⊢
  rcases mod_lt_two_mul (b + P) (2 ^ w) (by omega) with ⟨h4, h5⟩ | ⟨h4, h5⟩ <;>
  rcases mod_lt_two_mul c (2 ^ w) (by omega) with ⟨h6, h7⟩ | ⟨h6, h7⟩ <;>
  rw [h5] at h1 h2 ⊢ <;> rw [h7] <;>
  rcases mod_lt_two_mul (c + (2 ^ w - b)) (2 ^ w) (by omega) with ⟨h8, h9⟩ | ⟨h8, h9⟩ <;>
  first
    | (rw [h9]; omega)
    | (have h10 : c = 2 ^ w := by omega
       subst h10
       simp only [Nat.sub_self, Nat.zero_add] at *
       rcases mod_lt_two_mul (2 ^ w - b) (2 ^ w) (by omega) with ⟨h8, h9⟩ | ⟨h8, h9⟩ <;>
       rw [h9] <;> omega)


theorem offset_value_of_lt (w P b a : Nat) (ha : 0 < a) (h : b + P + a - 1 < 2 ^ w) :
    size_sub w (next_multiple w (size_add w b P) a) b = (b + P + a - 1) / a * a - b := by
  simp only [size_add]
  have hy : (b + P) % 2 ^ w = b + P := Nat.mod_eq_of_lt (by omega)
  rw [hy, next_multiple_of_lt w (b + P) a ha h]
  unfold size_sub
  have h1 := ceil_ge (b + P) a ha
  have h2 := ceil_lt (b + P) a ha
  generalize (b + P + a - 1) / a * a = c at h1 h2 ⊢
  rw [Nat.mod_eq_of_lt (show b < 2 ^ w by omega)]
  have h3 : c + (2 ^ w - b) = c - b + 2 ^ w := by omega
  rw [h3, Nat.add_mod_right]
  exact Nat.mod_eq_of_lt (by omega)

theorem ceil_mod_of_dvd (z n M : Nat) (hn : 0 < n) (hd : n ∣ M) :
    ((z % M + n - 1) / n * n) % M = ((z + n - 1) / n * n) % M := by
  have h1 : z = z % M + M * (z / M) := (Nat.mod_add_div z M).symm
  have h2 : (z + n - 1) / n * n = (z % M + n - 1) / n * n + M * (z / M) := by
    conv_lhs => rw [h1]
    exact ceil_add_of_dvd (z % M) (M * (z / M)) n hn (Dvd.dvd.mul_right hd _)
  rw [h2, Nat.add_mul_mod_self_left]

/-! The fixpoint iteration of the mutation rules. -/

theorem run_pass_unchanged (adds removes : List mixin_id) (rules : List mutation_rule) :
    ∀ ws : Finset mixin_id, (run_pass adds removes rules ws).2 = false →
      (run_pass adds removes rules ws).1 = ws
        ∧ ∀ r ∈ rules, r.apply_to adds removes ws = ws := by
  induction rules with
  | nil => intro ws _; exact ⟨rfl, fun r hr => absurd hr (List.not_mem_nil r)⟩
  | cons r rs ih =>
    intro ws h
    simp only [run_pass, Bool.or_eq_false_iff, decide_eq_false_iff_not, not_not] at h
    obtain ⟨h1, h2⟩ := h
    rw [h1] at h2
    obtain ⟨h3, h4⟩ := ih ws h2
    refine ⟨?_, ?_⟩
    · simp only [run_pass]; rw [h1]; exact h3
    · intro r1 hr1
      rcases List.mem_cons.1 hr1 with rfl | hr1
      · exact h1
      · exact h4 r1 hr1

/-- A working set returned by the iteration is left unchanged by every rule. -/
theorem resolve_fixed (rules : List mutation_rule) (adds removes : List mixin_id) :
    ∀ (n : Nat) (ws s : Finset mixin_id), resolve rules adds removes n ws = some s →
      ∀ r ∈ rules, r.apply_to adds removes s = s := by
  intro n
  induction n with
  | zero => intro ws s h; simp [resolve] at h
  | succ n ih =>
    intro ws s h
    simp only [resolve] at h
    by_cases hc : (run_pass adds removes rules ws).2 = true
    · rw [if_pos hc] at h
      exact ih _ s h
    · rw [if_neg hc] at h
      have hc1 : (run_pass adds removes rules ws).2 = false := by simpa using hc
      obtain ⟨h1, h2⟩ := run_pass_unchanged adds removes rules ws hc1
      have hs : s = ws := by
        rw [h1] at h
        exact (Option.some.inj h).symm
      rw [hs]
      exact h2

/-- With a single rule that is idempotent at `ws`, two passes are enough and the
result is the rule applied once. -/
theorem resolve_single (r : mutation_rule) (adds removes : List mixin_id) (n : Nat)
    (ws : Finset mixin_id) (hn : 2 ≤ n)
    (hid : r.apply_to adds removes (r.apply_to adds removes ws) = r.apply_to adds removes ws) :
    resolve [r] adds removes n ws = some (r.apply_to adds removes ws) := by
  obtain ⟨k, rfl⟩ : ∃ k, n = k + 2 := ⟨n - 2, by omega⟩
  by_cases h : r.apply_to adds removes ws = ws
  · simp [resolve, run_pass, h]
  · simp [resolve, run_pass, h, hid]

theorem apply_to_idempotent (r : mutation_rule) (adds removes : List mixin_id)
    (ws : Finset mixin_id) :
    r.apply_to adds removes (r.apply_to adds removes ws) = r.apply_to adds removes ws := by
  cases r with
  | mandatory_mixin id => simp [mutation_rule.apply_to]
  | deprecated_mixin id => simp [mutation_rule.apply_to]
  | mutually_exclusive_mixins mixins =>
    simp only [mutation_rule.apply_to]
    by_cases h : 1 < (ws.filter (fun x => x ∈ mixins)).card
    · rw [if_pos h]
      cases hl : last_added mixins adds with
      | none => simp only [if_pos h]
      | some keep =>
        simp only
        have hle : ¬ 1 < ((ws.filter (fun x => x ∉ mixins ∨ x = keep)).filter
            (fun x => x ∈ mixins)).card := by
          rw [not_lt, Finset.card_le_one]
          intro a ha b hb
          simp only [Finset.mem_filter] at ha hb
          have h1 : a = keep := by tauto
          have h2 : b = keep := by tauto
          rw [h1, h2]
        rw [if_neg hle]
    · rw [if_neg h, if_neg h]
  | bundled_mixins mixins =>
    simp only [mutation_rule.apply_to]
    by_cases h1 : ∃ x ∈ adds, x ∈ mixins <;> by_cases h2 : ∃ x ∈ removes, x ∈ mixins <;>
      simp only [h1, h2, if_true, if_false] <;> ext x <;>
      simp only [Finset.mem_union, Finset.mem_sdiff] <;> tauto
  | dependent_mixins master_id mixins =>
    simp only [mutation_rule.apply_to]
    by_cases h1 : master_id ∈ adds <;> by_cases h2 : master_id ∈ removes <;>
      simp only [h1, h2, if_true, if_false] <;> ext x <;>
      simp only [Finset.mem_union, Finset.mem_sdiff] <;> tauto

/-- Under a single rule every mutation is resolved, to the rule applied once to
the object with the requests applied. -/
theorem mutate_single (r : mutation_rule) (n : Nat) (object : Finset mixin_id)
    (adds removes : List mixin_id) (hn : 2 ≤ n) :
    mutate [r] n object adds removes
      = some (r.apply_to adds removes ((object ∪ adds.toFinset) \ removes.toFinset)) :=
  resolve_single r adds removes n _ hn (apply_to_idempotent r adds removes _)

theorem last_added_eq (mixins : Finset mixin_id) (adds : List mixin_id) (m : mixin_id)
    (hm : m ∈ adds) (hmE : m ∈ mixins) (hone : ∀ x ∈ adds, x ∈ mixins → x = m) :
    last_added mixins adds = some m := by
  unfold last_added
  have hne : adds.filter (fun x => x ∈ mixins) ≠ [] := by
    intro h
    have : m ∈ adds.filter (fun x => x ∈ mixins) := by
      simp [List.mem_filter, hm, hmE]
    rw [h] at this
    exact absurd this (List.not_mem_nil m)
  rw [List.getLast?_eq_getLast _ hne]
  have hmem := List.getLast_mem hne
  simp only [List.mem_filter, decide_eq_true_eq] at hmem
  rw [hone _ hmem.1 hmem.2]

/-! The claims. -/

/-- Claim C1: with the pointer size P and the alignment a powers of two, a buffer
address that is a multiple of P, and no overflow of size_t in the two
computations, mixin_offset returns an offset and the mixin placed there fits in
a buffer of mem_size_for_mixin bytes. -/
theorem mixin_fits_in_buffer (w P p mixin_size a k buffer : Nat)
    (hP : P = 2 ^ p) (ha : a = 2 ^ k) (hbuf : buffer % P = 0)
    (hov1 : buffer + P + a - 1 < 2 ^ w)
    (hov2 : next_multiple w P a + mixin_size + P - 1 < 2 ^ w) :
    ∃ off, mixin_offset w P buffer a = some off
      ∧ off + mixin_size ≤ mem_size_for_mixin w P mixin_size a := by
  refine ⟨_, mixin_offset_aligned w P buffer a hbuf, ?_⟩
  have hP0 : 0 < P := by rw [hP]; exact Nat.two_pow_pos p
  have ha0 : 0 < a := by rw [ha]; exact Nat.two_pow_pos k
  have hA : next_multiple w P a = (P + a - 1) / a * a :=
    next_multiple_of_lt w P a ha0 (by omega)
  have hmem : mem_size_for_mixin w P mixin_size a
      = (next_multiple w P a + mixin_size + P - 1) / P * P := by
    unfold mem_size_for_mixin
    simp only [size_add]
    rw [Nat.mod_eq_of_lt (show next_multiple w P a + mixin_size < 2 ^ w by omega)]
    exact next_multiple_of_lt w _ P hP0 hov2
  have h1 := ceil_ge (next_multiple w P a + mixin_size) P hP0
  rw [hmem, offset_value_of_lt w P buffer a ha0 hov1]
  have h2 : (buffer + P + a - 1) / a * a ≤ buffer + next_multiple w P a := by
    have hPb : P ∣ buffer := Nat.dvd_of_mod_eq_zero hbuf
    rcases pow2_dvd_or k p with h | h
    · rw [← ha, ← hP] at h
      have h3 : a ∣ buffer + P := Dvd.dvd.add (Dvd.dvd.trans h hPb) h
      rw [ceil_eq_of_dvd (buffer + P) a ha0 h3, hA]
      have := ceil_ge P a ha0
      omega
    · rw [← ha, ← hP] at h
      have hPa : P ≤ a := Nat.le_of_dvd ha0 h
      have h4 : P ≤ (P + a - 1) / a * a := ceil_ge P a ha0
      have h5 : a ≤ (P + a - 1) / a * a :=
        Nat.le_of_dvd (by omega) (ceil_dvd P a)
      have h6 : P ∣ a - buffer % a :=
        Nat.dvd_sub' h ((Nat.dvd_mod_iff h).2 hPb)
      have h7 : buffer % a < a := Nat.mod_lt _ ha0
      have h8 : P ≤ a - buffer % a := Nat.le_of_dvd (by omega) h6
      have h9 := Nat.div_add_mod buffer a
      have h10 : a ∣ a * (buffer / a) + a := Dvd.dvd.add (Dvd.intro _ rfl) (dvd_refl a)
      have h11 := ceil_le_of_dvd (buffer + P) a (a * (buffer / a) + a) ha0 h10 (by omega)
      rw [hA]
      omega
  omega

/-- Claim C1 at a 64-bit platform: a 24-byte mixin of alignment 16 in a buffer
at address 4104. -/
theorem mixin_fits_in_buffer_witness :
    8 = 2 ^ 3 ∧ 16 = 2 ^ 4 ∧ 4104 % 8 = 0 ∧ 4104 + 8 + 16 - 1 < 2 ^ 64
      ∧ next_multiple 64 8 16 + 24 + 8 - 1 < 2 ^ 64
      ∧ ∃ off, mixin_offset 64 8 4104 16 = some off
        ∧ off + 24 ≤ mem_size_for_mixin 64 8 24 16 :=
  ⟨by decide, by decide, by decide, by decide, by decide,
    mixin_fits_in_buffer 64 8 3 24 16 4 4104 (by decide) (by decide) (by decide)
      (by decide) (by decide)⟩

/-- Claim C2, amended: for every buffer address that is a multiple of the pointer
size P and every alignment a > 0, if a and P are powers of two, or if
buffer + P + a - 1 does not overflow size_t, then mixin_offset returns an
offset that leaves room for the pointer in front and aligns the mixin. -/
theorem mixin_offset_ge_and_aligned (w P buffer a : Nat) (ha : 0 < a) (hbuf : buffer < 2 ^ w)
    (hal : buffer % P = 0)
    (h : (∃ p k, P = 2 ^ p ∧ p < w ∧ a = 2 ^ k ∧ k < w) ∨ buffer + P + a - 1 < 2 ^ w) :
    ∃ off, mixin_offset w P buffer a = some off ∧ P ≤ off ∧ a ∣ buffer + off := by
  refine ⟨_, mixin_offset_aligned w P buffer a hal, ?_⟩
  rcases h with ⟨p, k, hP, hp, hak, hk⟩ | h
  · have hd : a ∣ 2 ^ w := by rw [hak]; exact Nat.pow_dvd_pow 2 (Nat.le_of_lt hk)
    have haP : a + P ≤ 2 ^ w := by rw [hak, hP]; exact pow2_add_le w k p hk hp
    have hP0 : 0 < P := by rw [hP]; exact Nat.two_pow_pos p
    rw [offset_value_of_dvd w P buffer a ha hd haP hbuf]
    have h1 := ceil_ge ((buffer + P) % 2 ^ w) a ha
    have h2 := ceil_dvd ((buffer + P) % 2 ^ w) a
    generalize ((buffer + P) % 2 ^ w + a - 1) / a * a = c at h1 h2 ⊢
    refine ⟨by omega, ?_⟩
    rcases mod_lt_two_mul (buffer + P) (2 ^ w) (by omega) with ⟨h4, h5⟩ | ⟨h4, h5⟩
    · rw [h5] at h1 ⊢
      have : buffer + (c - (buffer + P) + P) = c := by omega
      rw [this]; exact h2
    · rw [h5] at h1 ⊢
      have : buffer + (c - (buffer + P - 2 ^ w) + P) = c + 2 ^ w := by omega
      rw [this]; exact Dvd.dvd.add h2 hd
  · rw [offset_value_of_lt w P buffer a ha h]
    have h1 := ceil_ge (buffer + P) a ha
    have h2 := ceil_dvd (buffer + P) a
    generalize (buffer + P + a - 1) / a * a = c at h1 h2 ⊢
    refine ⟨by omega, ?_⟩
    have : buffer + (c - buffer) = c := by omega
    rw [this]; exact h2

/-- Claim C2, amended, at a 64-bit platform: alignment 16 at the top of the
address space (the sum overflows), and alignment 24 at a low address. -/
theorem mixin_offset_ge_and_aligned_witness :
    (0 < 16 ∧ 2 ^ 64 - 8 < 2 ^ 64 ∧ (2 ^ 64 - 8) % 8 = 0
      ∧ 8 = 2 ^ 3 ∧ 3 < 64 ∧ 16 = 2 ^ 4 ∧ 4 < 64
      ∧ ∃ off, mixin_offset 64 8 (2 ^ 64 - 8) 16 = some off
        ∧ 8 ≤ off ∧ 16 ∣ 2 ^ 64 - 8 + off)
    ∧ (0 < 24 ∧ 4096 < 2 ^ 64 ∧ 4096 % 8 = 0 ∧ 4096 + 8 + 24 - 1 < 2 ^ 64
      ∧ ∃ off, mixin_offset 64 8 4096 24 = some off ∧ 8 ≤ off ∧ 24 ∣ 4096 + off) :=
  ⟨⟨by decide, by decide, by decide, by decide, by decide, by decide, by decide,
      mixin_offset_ge_and_aligned 64 8 (2 ^ 64 - 8) 16 (by decide) (by decide) (by decide)
        (Or.inl ⟨3, 4, by decide, by decide, by decide, by decide⟩)⟩,
    ⟨by decide, by decide, by decide, by decide,
      mixin_offset_ge_and_aligned 64 8 4096 24 (by decide) (by decide) (by decide)
        (Or.inr (by decide))⟩⟩

/-- Claim C2 as stated fails on a 64-bit platform with 8-byte pointers.  At the
buffer address 4100, which is not a multiple of 8, the assertion at the head of
the function fails and no offset is returned, whatever the alignment (here 16).
At the buffer address 0 with the alignment 2 ^ 64 - 1 the offset returned is 0,
because 8 + (2 ^ 64 - 1) - 1 wraps around to 6. -/
theorem mixin_offset_overflow_counterexample :
    (¬ ∃ off, mixin_offset 64 8 4100 16 = some off ∧ 8 ≤ off ∧ 16 ∣ 4100 + off)
      ∧ (¬ ∃ off, mixin_offset 64 8 0 (2 ^ 64 - 1) = some off
          ∧ 8 ≤ off ∧ (2 ^ 64 - 1) ∣ 0 + off) := by
  have h1 : mixin_offset 64 8 4100 16 = none := by decide
  have h2 : mixin_offset 64 8 0 (2 ^ 64 - 1) = some 0 := by decide
  refine ⟨?_, ?_⟩
  · rintro ⟨off, h, _⟩
    rw [h1] at h
    exact Option.noConfusion h
  · rintro ⟨off, h, hge, _⟩
    rw [h2] at h
    have h0 : 0 = off := Option.some.inj h
    omega

/-- Claim C3, amended: with the pointer size P and the alignment a powers of two,
the size returned by mem_size_for_mixin is (P rounded up to a multiple of a)
plus (the mixin size rounded up to a multiple of P), provided that sum fits in
size_t; in general it is that sum reduced modulo the word size. -/
theorem mem_size_for_mixin_eq (w P p mixin_size a k : Nat)
    (hP : P = 2 ^ p) (hp : p < w) (ha : a = 2 ^ k) (hk : k < w) :
    mem_size_for_mixin w P mixin_size a
        = (round_up P a + round_up mixin_size P) % 2 ^ w
      ∧ (round_up P a + round_up mixin_size P < 2 ^ w →
          mem_size_for_mixin w P mixin_size a = round_up P a + round_up mixin_size P) := by
  have hP0 : 0 < P := by rw [hP]; exact Nat.two_pow_pos p
  have ha0 : 0 < a := by rw [ha]; exact Nat.two_pow_pos k
  have hM : 0 < 2 ^ w := Nat.two_pow_pos w
  have hPM : P ∣ 2 ^ w := by rw [hP]; exact Nat.pow_dvd_pow 2 (Nat.le_of_lt hp)
  have haP : a + P ≤ 2 ^ w := by rw [ha, hP]; exact pow2_add_le w k p hk hp
  have hA : next_multiple w P a = (P + a - 1) / a * a :=
    next_multiple_of_lt w P a ha0 (by omega)
  have hPA : P ∣ next_multiple w P a := by
    rcases pow2_dvd_or k p with h | h
    · rw [← ha, ← hP] at h
      rw [hA, ceil_eq_of_dvd P a ha0 h]
    · rw [← ha, ← hP] at h
      rw [hA]
      exact Dvd.dvd.trans h (ceil_dvd P a)
  have key : mem_size_for_mixin w P mixin_size a
      = (round_up P a + round_up mixin_size P) % 2 ^ w := by
    unfold mem_size_for_mixin
    simp only [size_add]
    rw [next_multiple_of_dvd w _ P hP0 hPM (Nat.mod_lt _ hM),
      ceil_mod_of_dvd _ P (2 ^ w) hP0 hPM,
      Nat.add_comm (next_multiple w P a) mixin_size,
      ceil_add_of_dvd mixin_size (next_multiple w P a) P hP0 hPA,
      hA, ceil_eq_round_up P a ha0, ceil_eq_round_up mixin_size P hP0,
      Nat.add_comm (round_up mixin_size P)]
  refine ⟨key, fun h => ?_⟩
  rw [key]
  exact Nat.mod_eq_of_lt h

/-- Claim C3, amended, at a 64-bit platform: a 20-byte mixin of alignment 32 takes
32 + 24 = 56 bytes. -/
theorem mem_size_for_mixin_eq_witness :
    8 = 2 ^ 3 ∧ 3 < 64 ∧ 32 = 2 ^ 5 ∧ 5 < 64
      ∧ round_up 8 32 + round_up 20 8 < 2 ^ 64
      ∧ round_up 8 32 = 32 ∧ round_up 20 8 = 24
      ∧ mem_size_for_mixin 64 8 20 32 = (round_up 8 32 + round_up 20 8) % 2 ^ 64
      ∧ mem_size_for_mixin 64 8 20 32 = round_up 8 32 + round_up 20 8 :=
  ⟨by decide, by decide, by decide, by decide, by decide, by decide, by decide,
    (mem_size_for_mixin_eq 64 8 3 20 32 5 (by decide) (by decide) (by decide)
      (by decide)).1,
    (mem_size_for_mixin_eq 64 8 3 20 32 5 (by decide) (by decide) (by decide)
      (by decide)).2 (by decide)⟩

/-- Claim C3 as stated fails: on a 64-bit platform with 8-byte pointers and the
alignment 1, the pointer size rounded up is 8 and the mixin size 2 ^ 64 - 8
rounded up is itself; their sum is 2 ^ 64, and mem_size_for_mixin returns 0,
because 8 + (2 ^ 64 - 8) wraps around to 0. -/
theorem mem_size_for_mixin_eq_counterexample :
    round_up 8 1 = 8 ∧ round_up (2 ^ 64 - 8) 8 = 2 ^ 64 - 8
      ∧ mem_size_for_mixin 64 8 (2 ^ 64 - 8) 1 = 0
      ∧ mem_size_for_mixin 64 8 (2 ^ 64 - 8) 1 ≠ round_up 8 1 + round_up (2 ^ 64 - 8) 8 := by
  decide

/-- Claim C4: with the pointer size P and the alignment a powers of two (a may
be smaller than P) and a buffer address that is a multiple of P, mixin_offset
returns an offset that is at least P, and the address of the slot in front of
the mixin, buffer + offset - P, is a multiple of P.  No assumption on
overflow. -/
theorem back_reference_slot_aligned (w P p buffer a k : Nat)
    (hP : P = 2 ^ p) (hp : p < w) (ha : a = 2 ^ k) (hk : k < w)
    (hbuf : buffer < 2 ^ w) (hal : buffer % P = 0) :
    ∃ off, mixin_offset w P buffer a = some off
      ∧ P ≤ off ∧ (buffer + off - P) % P = 0 := by
  refine ⟨_, mixin_offset_aligned w P buffer a hal, ?_⟩
  have hP0 : 0 < P := by rw [hP]; exact Nat.two_pow_pos p
  have ha0 : 0 < a := by rw [ha]; exact Nat.two_pow_pos k
  have hPM : P ∣ 2 ^ w := by rw [hP]; exact Nat.pow_dvd_pow 2 (Nat.le_of_lt hp)
  have haM : a ∣ 2 ^ w := by rw [ha]; exact Nat.pow_dvd_pow 2 (Nat.le_of_lt hk)
  have haP : a + P ≤ 2 ^ w := by rw [ha, hP]; exact pow2_add_le w k p hk hp
  have hPb : P ∣ buffer := Nat.dvd_of_mod_eq_zero hal
  have hoff := offset_value_of_dvd w P buffer a ha0 haM haP hbuf
  have hy : P ∣ (buffer + P) % 2 ^ w :=
    (Nat.dvd_mod_iff hPM).2 (Dvd.dvd.add hPb (dvd_refl P))
  have hc : P ∣ ((buffer + P) % 2 ^ w + a - 1) / a * a := by
    rcases pow2_dvd_or k p with h | h
    · rw [← ha, ← hP] at h
      rw [ceil_eq_of_dvd _ a ha0 (Dvd.dvd.trans h hy)]
      exact hy
    · rw [← ha, ← hP] at h
      exact Dvd.dvd.trans h (ceil_dvd _ a)
  rw [hoff]
  refine ⟨by omega, Nat.mod_eq_zero_of_dvd ?_⟩
  exact Nat.dvd_sub' (Dvd.dvd.add hPb (Dvd.dvd.add (Nat.dvd_sub' hc hy) (dvd_refl P)))
    (dvd_refl P)

/-- Claim C4 at a 64-bit platform: alignment 2, smaller than the pointer. -/
theorem back_reference_slot_aligned_witness :
    8 = 2 ^ 3 ∧ 3 < 64 ∧ 2 = 2 ^ 1 ∧ 1 < 64 ∧ 4104 < 2 ^ 64 ∧ 4104 % 8 = 0
      ∧ ∃ off, mixin_offset 64 8 4104 2 = some off
        ∧ 8 ≤ off ∧ (4104 + off - 8) % 8 = 0 :=
  ⟨by decide, by decide, by decide, by decide, by decide, by decide,
    back_reference_slot_aligned 64 8 3 4104 2 1 (by decide) (by decide) (by decide)
      (by decide) (by decide) (by decide)⟩

/-- Claim C5, amended: for every mixin size and every alignment a > 0,
mem_size_for_mixin is a multiple of the pointer size P; it is at least
P + size provided neither P + a - 1 nor next_multiple(P, a) + size + P - 1
overflows size_t. -/
theorem mem_size_for_mixin_padding (w P mixin_size a : Nat) (hP : 0 < P) (ha : 0 < a) :
    mem_size_for_mixin w P mixin_size a % P = 0
      ∧ (P + a - 1 < 2 ^ w → next_multiple w P a + mixin_size + P - 1 < 2 ^ w →
          P + mixin_size ≤ mem_size_for_mixin w P mixin_size a) := by
  refine ⟨Nat.mod_eq_zero_of_dvd (dvd_next_multiple w _ P), fun h1 h2 => ?_⟩
  unfold mem_size_for_mixin
  simp only [size_add]
  rw [Nat.mod_eq_of_lt (show next_multiple w P a + mixin_size < 2 ^ w by omega),
    next_multiple_of_lt w _ P hP h2]
  have h3 := ceil_ge (next_multiple w P a + mixin_size) P hP
  have h4 : P ≤ next_multiple w P a := by
    rw [next_multiple_of_lt w P a ha h1]
    exact ceil_ge P a ha
  omega

/-- Claim C5, amended, at a 64-bit platform: a 13-byte mixin of alignment 4. -/
theorem mem_size_for_mixin_padding_witness :
    0 < 8 ∧ 0 < 4 ∧ 8 + 4 - 1 < 2 ^ 64 ∧ next_multiple 64 8 4 + 13 + 8 - 1 < 2 ^ 64
      ∧ mem_size_for_mixin 64 8 13 4 % 8 = 0
      ∧ 8 + 13 ≤ mem_size_for_mixin 64 8 13 4 :=
  ⟨by decide, by decide, by decide, by decide,
    (mem_size_for_mixin_padding 64 8 13 4 (by decide) (by decide)).1,
    (mem_size_for_mixin_padding 64 8 13 4 (by decide) (by decide)).2
      (by decide) (by decide)⟩

/-- Claim C5 as stated fails: on a 64-bit platform with 8-byte pointers,
mem_size_for_mixin(2 ^ 64 - 9, 1) is 0, because 8 + (2 ^ 64 - 9) + 8 - 1 wraps
around to 6. -/
theorem mem_size_for_mixin_overflow_counterexample :
    ¬ (mem_size_for_mixin 64 8 (2 ^ 64 - 9) 1 % 8 = 0
      ∧ 8 + (2 ^ 64 - 9) ≤ mem_size_for_mixin 64 8 (2 ^ 64 - 9) 1) := by
  decide

/-- Claim C6 at the failing inputs: for a mixin that is move-constructible but
not move-assignable both templates of get_mixin_move_assignment are disabled and
the call has no matching function; for a mixin that is move-assignable but not
move-constructible both are enabled and the call is ambiguous. -/
theorem get_mixin_move_assignment_ill_formed (cc ca : Bool) :
    get_mixin_move_assignment ⟨cc, ca, true, false⟩ = call_result.no_matching_function
      ∧ get_mixin_move_assignment ⟨cc, ca, false, true⟩ = call_result.ambiguous_call := by
  cases cc <;> cases ca <;> exact ⟨rfl, rfl⟩

/-- Claim C7: under a mutually exclusive rule, a mutation that adds one member m
of the set (m is requested to be added and not to be removed, and no other
member is requested to be added) is resolved to a set that contains m and no
other member of the set, and that has the mixins outside the set exactly as the
mutation requested them. -/
theorem mutually_exclusive_keeps_added (mixins object : Finset mixin_id)
    (adds removes : List mixin_id) (m : mixin_id) (n : Nat) (hn : 2 ≤ n)
    (hmE : m ∈ mixins) (hm : m ∈ adds) (hrem : m ∉ removes)
    (hone : ∀ x ∈ adds, x ∈ mixins → x = m) :
    ∃ s, mutate [mutation_rule.mutually_exclusive_mixins mixins] n object adds removes = some s
      ∧ m ∈ s ∧ (∀ x ∈ mixins, x ∈ s → x = m)
      ∧ ∀ x, x ∉ mixins → (x ∈ s ↔ x ∈ (object ∪ adds.toFinset) \ removes.toFinset) := by
  refine ⟨_, mutate_single _ n object adds removes hn, ?_⟩
  have hl := last_added_eq mixins adds m hm hmE hone
  have hm0 : m ∈ (object ∪ adds.toFinset) \ removes.toFinset := by
    simp [Finset.mem_sdiff, Finset.mem_union, hm, hrem]
  generalize (object ∪ adds.toFinset) \ removes.toFinset = ws at hm0 ⊢
  simp only [mutation_rule.apply_to, hl]
  by_cases h : 1 < (ws.filter (fun x => x ∈ mixins)).card
  · rw [if_pos h]
    refine ⟨?_, ?_, ?_⟩
    · simp [Finset.mem_filter, hm0]
    · intro x hx hxs
      simp only [Finset.mem_filter] at hxs
      tauto
    · intro x hx
      simp [Finset.mem_filter, hx]
  · rw [if_neg h]
    refine ⟨hm0, ?_, fun x _ => Iff.rfl⟩
    intro x hx hxs
    rw [not_lt, Finset.card_le_one] at h
    exact h x (Finset.mem_filter.2 ⟨hxs, hx⟩) m (Finset.mem_filter.2 ⟨hm0, hmE⟩)

/-- Claim C7 on the example of the spec: the set is 0, 1, 2, the object holds 0
and the mutation adds 1. -/
theorem mutually_exclusive_keeps_added_witness :
    2 ≤ 2 ∧ 1 ∈ ({0, 1, 2} : Finset mixin_id) ∧ 1 ∈ [1] ∧ 1 ∉ ([] : List mixin_id)
      ∧ (∀ x ∈ [1], x ∈ ({0, 1, 2} : Finset mixin_id) → x = 1)
      ∧ ∃ s, mutate [mutation_rule.mutually_exclusive_mixins {0, 1, 2}] 2 {0} [1] [] = some s
        ∧ 1 ∈ s ∧ (∀ x ∈ ({0, 1, 2} : Finset mixin_id), x ∈ s → x = 1)
        ∧ ∀ x, x ∉ ({0, 1, 2} : Finset mixin_id) →
            (x ∈ s ↔ x ∈ (({0} : Finset mixin_id) ∪ [1].toFinset) \ ([] : List mixin_id).toFinset) :=
  ⟨by decide, by decide, by decide, by decide, by decide,
    mutually_exclusive_keeps_added {0, 1, 2} {0} [1] [] 1 2 (by decide) (by decide)
      (by decide) (by decide) (by decide)⟩

/-- Claim C8: under a bundled rule every mutation is resolved; one that adds a
member of the bundle (and removes none) results in all members of the bundle
being present, one that removes a member (and adds none) results in all members
being absent, and in both cases the mixins outside the bundle are exactly as
the mutation requested them. -/
theorem bundled_all_or_none (mixins object : Finset mixin_id)
    (adds removes : List mixin_id) (n : Nat) (hn : 2 ≤ n) :
    ∃ s, mutate [mutation_rule.bundled_mixins mixins] n object adds removes = some s
      ∧ ((∃ x ∈ adds, x ∈ mixins) → (∀ x ∈ removes, x ∉ mixins) →
          (∀ y ∈ mixins, y ∈ s)
            ∧ ∀ x, x ∉ mixins → (x ∈ s ↔ x ∈ (object ∪ adds.toFinset) \ removes.toFinset))
      ∧ ((∃ x ∈ removes, x ∈ mixins) → (∀ x ∈ adds, x ∉ mixins) →
          (∀ y ∈ mixins, y ∉ s)
            ∧ ∀ x, x ∉ mixins → (x ∈ s ↔ x ∈ (object ∪ adds.toFinset) \ removes.toFinset)) := by
  refine ⟨_, mutate_single _ n object adds removes hn, ?_, ?_⟩
  · intro ha hr
    have hr1 : ¬ ∃ x ∈ removes, x ∈ mixins := fun ⟨x, hx, hxm⟩ => hr x hx hxm
    simp only [mutation_rule.apply_to, if_pos ha, if_neg hr1]
    refine ⟨fun y hy => Finset.mem_union_right _ hy, fun x hx => ?_⟩
    simp [Finset.mem_union, hx]
  · intro hr ha
    have ha1 : ¬ ∃ x ∈ adds, x ∈ mixins := fun ⟨x, hx, hxm⟩ => ha x hx hxm
    simp only [mutation_rule.apply_to, if_pos hr, if_neg ha1]
    refine ⟨fun y hy => ?_, fun x hx => ?_⟩
    · simp [Finset.mem_sdiff, hy]
    · simp [Finset.mem_sdiff, hx]

/-- Claim C8 on the example of the spec: the bundle is 0, 1, 2; adding 0 to the
empty object yields exactly 0, 1, 2, and removing 1 from that object yields the
empty set. -/
theorem bundled_all_or_none_witness :
    (2 ≤ 2 ∧ (∃ x ∈ [0], x ∈ ({0, 1, 2} : Finset mixin_id))
        ∧ (∀ x ∈ ([] : List mixin_id), x ∉ ({0, 1, 2} : Finset mixin_id))
        ∧ mutate [mutation_rule.bundled_mixins {0, 1, 2}] 2 ∅ [0] [] = some {0, 1, 2}
        ∧ ∃ s, mutate [mutation_rule.bundled_mixins {0, 1, 2}] 2 ∅ [0] [] = some s
          ∧ ∀ y ∈ ({0, 1, 2} : Finset mixin_id), y ∈ s)
      ∧ (2 ≤ 2 ∧ (∃ x ∈ [1], x ∈ ({0, 1, 2} : Finset mixin_id))
        ∧ (∀ x ∈ ([] : List mixin_id), x ∉ ({0, 1, 2} : Finset mixin_id))
        ∧ mutate [mutation_rule.bundled_mixins {0, 1, 2}] 2 {0, 1, 2} [] [1] = some ∅
        ∧ ∃ s, mutate [mutation_rule.bundled_mixins {0, 1, 2}] 2 {0, 1, 2} [] [1] = some s
          ∧ ∀ y ∈ ({0, 1, 2} : Finset mixin_id), y ∉ s) := by
  refine ⟨⟨by decide, by decide, by decide, by decide, ?_⟩,
    ⟨by decide, by decide, by decide, by decide, ?_⟩⟩
  · obtain ⟨s, hs, h1, _⟩ := bundled_all_or_none {0, 1, 2} ∅ [0] [] 2 (by decide)
    exact ⟨s, hs, (h1 (by decide) (by decide)).1⟩
  · obtain ⟨s, hs, _, h2⟩ := bundled_all_or_none {0, 1, 2} {0, 1, 2} [] [1] 2 (by decide)
    exact ⟨s, hs, (h2 (by decide) (by decide)).1⟩

/-- Claim C10: with the rule mandatory(id) active, every mutation that is
resolved yields a mixin set that contains id, whatever the object held and
whatever the mutation requested, and so does every non-empty sequence of
mutations; with that rule alone every mutation and every sequence of mutations
is resolved. -/
theorem mandatory_mixin_present (id : mixin_id) (n : Nat) (rules : List mutation_rule)
    (hn : 2 ≤ n) (hr : mutation_rule.mandatory_mixin id ∈ rules) :
    (∀ object adds removes s, mutate rules n object adds removes = some s → id ∈ s)
      ∧ (∀ object m ms s, mutate_all rules n object (m :: ms) = some s → id ∈ s)
      ∧ (∀ object adds removes,
          ∃ s, mutate [mutation_rule.mandatory_mixin id] n object adds removes = some s ∧ id ∈ s)
      ∧ (∀ object m ms,
          ∃ s, mutate_all [mutation_rule.mandatory_mixin id] n object (m :: ms) = some s
            ∧ id ∈ s) := by
  have key : ∀ (rs : List mutation_rule), mutation_rule.mandatory_mixin id ∈ rs →
      ∀ object adds removes s, mutate rs n object adds removes = some s → id ∈ s := by
    intro rs hrs object adds removes s hs
    have h := resolve_fixed rs adds removes n _ s hs _ hrs
    simp only [mutation_rule.apply_to] at h
    rw [← h]
    exact Finset.mem_insert_self id s
  have keyall : ∀ (rs : List mutation_rule), mutation_rule.mandatory_mixin id ∈ rs →
      ∀ ms object m s, mutate_all rs n object (m :: ms) = some s → id ∈ s := by
    intro rs hrs ms
    induction ms with
    | nil =>
      intro object m s hs
      simp only [mutate_all] at hs
      cases hm : mutate rs n object m.1 m.2 with
      | none => rw [hm] at hs; simp at hs
      | some s1 =>
        rw [hm] at hs
        simp only [Option.some.injEq] at hs
        rw [← hs]
        exact key rs hrs object m.1 m.2 s1 hm
    | cons m2 ms ih =>
      intro object m s hs
      rw [mutate_all] at hs
      cases hm : mutate rs n object m.1 m.2 with
      | none => rw [hm] at hs; simp at hs
      | some s1 =>
        rw [hm] at hs
        exact ih s1 m2 s hs
  have total : ∀ object adds removes,
      ∃ s, mutate [mutation_rule.mandatory_mixin id] n object adds removes = some s ∧ id ∈ s := by
    intro object adds removes
    refine ⟨_, mutate_single _ n object adds removes hn, ?_⟩
    simp only [mutation_rule.apply_to]
    exact Finset.mem_insert_self id _
  have totalall : ∀ ms object m,
      ∃ s, mutate_all [mutation_rule.mandatory_mixin id] n object (m :: ms) = some s := by
    intro ms
    induction ms with
    | nil =>
      intro object m
      obtain ⟨s, hs, _⟩ := total object m.1 m.2
      exact ⟨s, by simp [mutate_all, hs]⟩
    | cons m2 ms ih =>
      intro object m
      obtain ⟨s, hs, _⟩ := total object m.1 m.2
      obtain ⟨s2, hs2⟩ := ih s m2
      exact ⟨s2, by rw [mutate_all, hs]; exact hs2⟩
  refine ⟨key rules hr, fun object m ms s => keyall rules hr ms object m s, total, ?_⟩
  intro object m ms
  obtain ⟨s, hs⟩ := totalall ms object m
  exact ⟨s, hs, keyall _ (List.mem_singleton.2 rfl) ms object m s hs⟩

/-- Claim C10 on the example of the spec: mandatory(7) and an object holding 7;
the mutation that removes 7 leaves 7 present, also when a bundled rule is
active beside the mandatory one. -/
theorem mandatory_mixin_present_witness :
    2 ≤ 2
      ∧ mutation_rule.mandatory_mixin 7
          ∈ [mutation_rule.bundled_mixins {1, 2}, mutation_rule.mandatory_mixin 7]
      ∧ mutate [mutation_rule.bundled_mixins {1, 2}, mutation_rule.mandatory_mixin 7] 2
          {7} [1] [7] = some {7, 1, 2}
      ∧ 7 ∈ ({7, 1, 2} : Finset mixin_id)
      ∧ ∃ s, mutate [mutation_rule.mandatory_mixin 7] 2 {7} [] [7] = some s ∧ 7 ∈ s :=
  ⟨by decide, by simp, by decide,
    (mandatory_mixin_present 7 2
      [mutation_rule.bundled_mixins {1, 2}, mutation_rule.mandatory_mixin 7]
      (by decide) (by simp)).1 {7} [1] [7] {7, 1, 2} (by decide),
    (mandatory_mixin_present 7 2
      [mutation_rule.bundled_mixins {1, 2}, mutation_rule.mandatory_mixin 7]
      (by decide) (by simp)).2.2.1 {7} [] [7]⟩

/-! The order of a call table. -/

theorem insert_binding_perm (b : message_for_mixin) (l : List message_for_mixin) :
    (insert_binding b l).Perm (b :: l) := by
  induction l with
  | nil => exact List.Perm.refl _
  | cons c cs ih =>
    simp only [insert_binding]
    by_cases h : c.priority ≤ b.priority
    · rw [if_pos h]
    · rw [if_neg h]
      exact (List.Perm.cons c ih).trans (List.Perm.swap b c cs)

theorem order_bindings_perm (l : List message_for_mixin) : (order_bindings l).Perm l := by
  induction l with
  | nil => exact List.Perm.refl _
  | cons b bs ih =>
    simp only [order_bindings]
    exact (insert_binding_perm b _).trans (List.Perm.cons b ih)

theorem insert_binding_sorted (b : message_for_mixin) (l : List message_for_mixin)
    (hl : l.Pairwise (fun x y => y.priority ≤ x.priority)) :
    (insert_binding b l).Pairwise (fun x y => y.priority ≤ x.priority) := by
  induction l with
  | nil => simp [insert_binding]
  | cons c cs ih =>
    simp only [insert_binding]
    rw [List.pairwise_cons] at hl
    by_cases h : c.priority ≤ b.priority
    · rw [if_pos h]
      refine List.Pairwise.cons ?_ (List.Pairwise.cons hl.1 hl.2)
      intro y hy
      rcases List.mem_cons.1 hy with rfl | hy
      · exact h
      · exact le_trans (hl.1 y hy) h
    · rw [if_neg h]
      refine List.Pairwise.cons ?_ (ih hl.2)
      intro y hy
      rcases List.mem_cons.1 ((insert_binding_perm b cs).subset hy) with rfl | hy
      · exact le_of_lt (not_le.1 h)
      · exact hl.1 y hy

theorem order_bindings_sorted (l : List message_for_mixin) :
    (order_bindings l).Pairwise (fun x y => y.priority ≤ x.priority) := by
  induction l with
  | nil => exact List.Pairwise.nil
  | cons b bs ih => exact insert_binding_sorted b _ ih

theorem filter_insert_binding (p : Int) (b : message_for_mixin) (l : List message_for_mixin) :
    (insert_binding b l).filter (fun x => x.priority = p)
      = (b :: l).filter (fun x => x.priority = p) := by
  induction l with
  | nil => rfl
  | cons c cs ih =>
    simp only [insert_binding]
    by_cases h : c.priority ≤ b.priority
    · rw [if_pos h]
    · rw [if_neg h]
      simp only [List.filter_cons] at ih ⊢
      rw [ih]
      by_cases hb : b.priority = p <;> by_cases hc : c.priority = p
      · exact absurd (by rw [hb, hc]) h
      · simp [hb, hc]
      · simp [hb, hc]
      · simp [hb, hc]

theorem filter_order_bindings (p : Int) (l : List message_for_mixin) :
    (order_bindings l).filter (fun x => x.priority = p)
      = l.filter (fun x => x.priority = p) := by
  induction l with
  | nil => rfl
  | cons b bs ih =>
    simp only [order_bindings]
    rw [filter_insert_binding, List.filter_cons, List.filter_cons, ih]

/-- Claim C11: the call table of a message in a composed type is a permutation of
the bindings of the mixins of the type that implement the message, it is in
descending order of priority, the entries of one priority stand in the order of
their registration, and, when at least one mixin of the type implements the
message, unicast invokes an implementer whose priority no other exceeds. -/
theorem call_table_ordered (registry : List message_for_mixin)
    (type_mixins : Finset mixin_id) (msg : message_id) :
    (call_table registry type_mixins msg).Perm (implementers registry type_mixins msg)
      ∧ (call_table registry type_mixins msg).Pairwise (fun x y => y.priority ≤ x.priority)
      ∧ (∀ p : Int, (call_table registry type_mixins msg).filter (fun x => x.priority = p)
          = (implementers registry type_mixins msg).filter (fun x => x.priority = p))
      ∧ ((∃ b ∈ registry, b.message = msg ∧ b.mixin ∈ type_mixins) →
          ∃ top, send_unicast registry type_mixins msg = some top
            ∧ top ∈ implementers registry type_mixins msg
            ∧ ∀ b ∈ implementers registry type_mixins msg, b.priority ≤ top.priority) := by
  have hperm := order_bindings_perm (implementers registry type_mixins msg)
  have hsorted := order_bindings_sorted (implementers registry type_mixins msg)
  refine ⟨hperm, hsorted, fun p => filter_order_bindings p _, ?_⟩
  rintro ⟨b, hb, hmsg, hmix⟩
  have hmem : b ∈ implementers registry type_mixins msg := by
    simp [implementers, List.mem_filter, hb, hmsg, hmix]
  have hmem1 : b ∈ call_table registry type_mixins msg := hperm.symm.subset hmem
  unfold send_unicast
  unfold call_table at hmem1 ⊢
  cases htab : order_bindings (implementers registry type_mixins msg) with
  | nil => rw [htab] at hmem1; exact absurd hmem1 (List.not_mem_nil b)
  | cons top rest =>
    rw [htab] at hperm hsorted
    refine ⟨top, rfl, hperm.subset (List.mem_cons_self top rest), ?_⟩
    intro c hc
    rcases List.mem_cons.1 (hperm.symm.subset hc) with rfl | hc1
    · exact le_refl _
    · exact (List.pairwise_cons.1 hsorted).1 c hc1

/-- Claim C11 on the examples of the spec.  Mixins 0, 1, 2 (X, Y, Z, registered
in this order) bind message 0 with the priorities 0, 5, 5: the call order is
Y, Z, X.  Mixins 10 and 11 (dynlib_a_mixin1, dynlib_a_mixin2) bind message 1
(dl_a_mixin_specific) with the priorities 0 and 1: unicast invokes mixin 11. -/
theorem call_table_ordered_witness :
    (∃ b ∈ [message_for_mixin.mk 0 0 0 100, message_for_mixin.mk 1 0 5 101,
          message_for_mixin.mk 2 0 5 102], b.message = 0 ∧ b.mixin ∈ ({0, 1, 2} : Finset mixin_id))
      ∧ call_table [message_for_mixin.mk 0 0 0 100, message_for_mixin.mk 1 0 5 101,
          message_for_mixin.mk 2 0 5 102] {0, 1, 2} 0
        = [message_for_mixin.mk 1 0 5 101, message_for_mixin.mk 2 0 5 102,
          message_for_mixin.mk 0 0 0 100]
      ∧ (∃ top, send_unicast [message_for_mixin.mk 0 0 0 100, message_for_mixin.mk 1 0 5 101,
          message_for_mixin.mk 2 0 5 102] {0, 1, 2} 0 = some top
        ∧ top ∈ implementers [message_for_mixin.mk 0 0 0 100, message_for_mixin.mk 1 0 5 101,
          message_for_mixin.mk 2 0 5 102] {0, 1, 2} 0
        ∧ ∀ b ∈ implementers [message_for_mixin.mk 0 0 0 100, message_for_mixin.mk 1 0 5 101,
          message_for_mixin.mk 2 0 5 102] {0, 1, 2} 0, b.priority ≤ top.priority)
      ∧ send_unicast [message_for_mixin.mk 10 1 0 101, message_for_mixin.mk 10 2 0 11,
          message_for_mixin.mk 11 1 1 102, message_for_mixin.mk 11 2 0 12] {10, 11} 1
        = some (message_for_mixin.mk 11 1 1 102) :=
  ⟨by decide, by decide,
    (call_table_ordered [message_for_mixin.mk 0 0 0 100, message_for_mixin.mk 1 0 5 101,
      message_for_mixin.mk 2 0 5 102] {0, 1, 2} 0).2.2.2 (by decide),
    by decide⟩

/-- Claim C12: for every s and every n > 0 such that s + n - 1 does not overflow
size_t, next_multiple(s, n) is the least multiple of n that is at least s: n
divides it, it lies between s and s + n - 1, no multiple of n from s on is
smaller, and it is s when n divides s. -/
theorem next_multiple_least (w s n : Nat) (hn : 0 < n) (h : s + n - 1 < 2 ^ w) :
    n ∣ next_multiple w s n
      ∧ s ≤ next_multiple w s n ∧ next_multiple w s n < s + n
      ∧ (∀ m, n ∣ m → s ≤ m → next_multiple w s n ≤ m)
      ∧ (n ∣ s → next_multiple w s n = s) := by
  rw [next_multiple_of_lt w s n hn h]
  exact ⟨ceil_dvd s n, ceil_ge s n hn, ceil_lt s n hn,
    fun m hm hs => ceil_le_of_dvd s n m hn hm hs, fun hs => ceil_eq_of_dvd s n hn hs⟩

/-- Claim C12 at a 64-bit platform: 13 rounded up to a multiple of 8. -/
theorem next_multiple_least_witness :
    0 < 8 ∧ 13 + 8 - 1 < 2 ^ 64
      ∧ 8 ∣ next_multiple 64 13 8
      ∧ 13 ≤ next_multiple 64 13 8 ∧ next_multiple 64 13 8 < 13 + 8
      ∧ next_multiple 64 13 8 ≤ 24
      ∧ next_multiple 64 16 8 = 16 :=
  ⟨by decide, by decide,
    (next_multiple_least 64 13 8 (by decide) (by decide)).1,
    (next_multiple_least 64 13 8 (by decide) (by decide)).2.1,
    (next_multiple_least 64 13 8 (by decide) (by decide)).2.2.1,
    (next_multiple_least 64 13 8 (by decide) (by decide)).2.2.2.1 24 (by decide) (by decide),
    (next_multiple_least 64 16 8 (by decide) (by decide)).2.2.2.2 (by decide)⟩

/-- Claim C13: for every mixin class each of get_mixin_copy_constructor,
get_mixin_copy_assignment and get_mixin_move_constructor selects one overload;
the procedure returned is the one that calls the copy constructor, the copy
assignment, the move constructor when the class is copy-constructible,
copy-assignable, move-constructible respectively, and null otherwise. -/
theorem get_mixin_copy_move_selected (t : mixin_traits) :
    (get_mixin_copy_constructor t
        = call_result.selected (if t.is_copy_constructible
            then mixin_proc.call_mixin_copy_constructor else mixin_proc.nullptr)
      ∧ get_mixin_copy_assignment t
        = call_result.selected (if t.is_copy_assignable
            then mixin_proc.call_mixin_copy_assignment else mixin_proc.nullptr)
      ∧ get_mixin_move_constructor t
        = call_result.selected (if t.is_move_constructible
            then mixin_proc.call_mixin_move_constructor else mixin_proc.nullptr))
      ∧ (∃ p, get_mixin_copy_constructor t = call_result.selected p
          ∧ (p ≠ mixin_proc.nullptr ↔ t.is_copy_constructible = true))
      ∧ (∃ p, get_mixin_copy_assignment t = call_result.selected p
          ∧ (p ≠ mixin_proc.nullptr ↔ t.is_copy_assignable = true))
      ∧ (∃ p, get_mixin_move_constructor t = call_result.selected p
          ∧ (p ≠ mixin_proc.nullptr ↔ t.is_move_constructible = true)) := by
  obtain ⟨cc, ca, mc, ma⟩ := t
  cases cc <;> cases ca <;> cases mc <;> cases ma <;>
    exact ⟨⟨rfl, rfl, rfl⟩, ⟨_, rfl, by decide⟩, ⟨_, rfl, by decide⟩, ⟨_, rfl, by decide⟩⟩

/-- The offset computed is the least admissible one, when the alignment and the
pointer size are powers of two or when the computation does not overflow. -/
theorem offset_value_spec (w P b a : Nat) (ha : 0 < a) (hb : b < 2 ^ w)
    (h : (∃ p k, P = 2 ^ p ∧ p < w ∧ a = 2 ^ k ∧ k < w) ∨ b + P + a - 1 < 2 ^ w) :
    P ≤ size_sub w (next_multiple w (size_add w b P) a) b
      ∧ a ∣ b + size_sub w (next_multiple w (size_add w b P) a) b
      ∧ (∀ k, P ≤ k → a ∣ b + k → size_sub w (next_multiple w (size_add w b P) a) b ≤ k)
      ∧ size_sub w (next_multiple w (size_add w b P) a) b < P + a := by
  rcases h with ⟨p, k, hP, hp, hak, hk⟩ | h
  · have hd : a ∣ 2 ^ w := by rw [hak]; exact Nat.pow_dvd_pow 2 (Nat.le_of_lt hk)
    have haP : a + P ≤ 2 ^ w := by rw [hak, hP]; exact pow2_add_le w k p hk hp
    rw [offset_value_of_dvd w P b a ha hd haP hb]
    have h1 := ceil_ge ((b + P) % 2 ^ w) a ha
    have h2 := ceil_dvd ((b + P) % 2 ^ w) a
    have h3 := ceil_lt ((b + P) % 2 ^ w) a ha
    have hmin := fun m => ceil_le_of_dvd ((b + P) % 2 ^ w) a m ha
    generalize ((b + P) % 2 ^ w + a - 1) / a * a = c at h1 h2 h3 hmin ⊢
    rcases mod_lt_two_mul (b + P) (2 ^ w) (by omega) with ⟨h4, h5⟩ | ⟨h4, h5⟩
    · rw [h5] at h1 h3 hmin ⊢
      refine ⟨by omega, ?_, ?_, by omega⟩
      · have : b + (c - (b + P) + P) = c := by omega
        rw [this]; exact h2
      · intro j hj hdj
        have := hmin (b + j) hdj (by omega)
        omega
    · rw [h5] at h1 h3 hmin ⊢
      refine ⟨by omega, ?_, ?_, by omega⟩
      · have : b + (c - (b + P - 2 ^ w) + P) = c + 2 ^ w := by omega
        rw [this]; exact Dvd.dvd.add h2 hd
      · intro j hj hdj
        have := hmin (b + j - 2 ^ w) (Nat.dvd_sub' hdj hd) (by omega)
        omega
  · rw [offset_value_of_lt w P b a ha h]
    have h1 := ceil_ge (b + P) a ha
    have h2 := ceil_dvd (b + P) a
    have h3 := ceil_lt (b + P) a ha
    have hmin := fun m => ceil_le_of_dvd (b + P) a m ha
    generalize (b + P + a - 1) / a * a = c at h1 h2 h3 hmin ⊢
    refine ⟨by omega, ?_, ?_, by omega⟩
    · have : b + (c - b) = c := by omega
      rw [this]; exact h2
    · intro j hj hdj
      have := hmin (b + j) hdj (by omega)
      omega

theorem dvd_add_of_mod_eq (a b c k : Nat) (h : b % a = c % a) (hd : a ∣ b + k) : a ∣ c + k := by
  rw [Nat.dvd_iff_mod_eq_zero] at hd ⊢
  rw [Nat.add_mod, ← h, ← Nat.add_mod]
  exact hd

/-- Claim C14, amended: for every buffer address b that is a multiple of the
pointer size P and every alignment a > 0, if a and P are powers of two, or if
b + P + a - 1 does not overflow size_t, then mixin_offset(b, a) returns the
least k >= P such that b + k is a multiple of a; it lies between P and
P + a - 1, and it is the same for two such addresses that agree modulo a. -/
theorem mixin_offset_least (w P b a : Nat) (ha : 0 < a) (hb : b < 2 ^ w) (hal : b % P = 0)
    (h : (∃ p k, P = 2 ^ p ∧ p < w ∧ a = 2 ^ k ∧ k < w) ∨ b + P + a - 1 < 2 ^ w) :
    ∃ off, mixin_offset w P b a = some off
      ∧ (P ≤ off ∧ a ∣ b + off ∧ ∀ k, P ≤ k → a ∣ b + k → off ≤ k)
      ∧ (P ≤ off ∧ off < P + a)
      ∧ (∀ c, c < 2 ^ w → c % P = 0 →
          ((∃ p k, P = 2 ^ p ∧ p < w ∧ a = 2 ^ k ∧ k < w) ∨ c + P + a - 1 < 2 ^ w) →
          c % a = b % a → mixin_offset w P c a = some off) := by
  obtain ⟨h1, h2, h3, h4⟩ := offset_value_spec w P b a ha hb h
  refine ⟨_, mixin_offset_aligned w P b a hal, ⟨h1, h2, h3⟩, ⟨h1, h4⟩, ?_⟩
  intro c hc hcal hside hmod
  obtain ⟨g1, g2, g3, _⟩ := offset_value_spec w P c a ha hc hside
  rw [mixin_offset_aligned w P c a hcal]
  congr 1
  apply Nat.le_antisymm
  · exact g3 _ h1 (dvd_add_of_mod_eq a b c _ hmod.symm h2)
  · exact h3 _ g1 (dvd_add_of_mod_eq a c b _ hmod g2)

/-- Claim C14, amended, at a 64-bit platform: alignment 16 at the top of the
address space and at a low address that agrees with it modulo 16, and alignment
24 at two low addresses that agree modulo 24; all four addresses are multiples
of 8. -/
theorem mixin_offset_least_witness :
    (0 < 16 ∧ 2 ^ 64 - 24 < 2 ^ 64 ∧ (2 ^ 64 - 24) % 8 = 0
      ∧ 8 = 2 ^ 3 ∧ 3 < 64 ∧ 16 = 2 ^ 4 ∧ 4 < 64
      ∧ 4104 < 2 ^ 64 ∧ 4104 % 8 = 0 ∧ 4104 % 16 = (2 ^ 64 - 24) % 16
      ∧ ∃ off, mixin_offset 64 8 (2 ^ 64 - 24) 16 = some off
        ∧ 8 ≤ off ∧ 16 ∣ 2 ^ 64 - 24 + off ∧ off ≤ 24 ∧ off < 8 + 16
        ∧ mixin_offset 64 8 4104 16 = some off)
    ∧ (0 < 24 ∧ 4112 < 2 ^ 64 ∧ 4112 % 8 = 0 ∧ 4112 + 8 + 24 - 1 < 2 ^ 64
      ∧ 32 < 2 ^ 64 ∧ 32 % 8 = 0 ∧ 32 + 8 + 24 - 1 < 2 ^ 64 ∧ 32 % 24 = 4112 % 24
      ∧ ∃ off, mixin_offset 64 8 4112 24 = some off
        ∧ 8 ≤ off ∧ 24 ∣ 4112 + off ∧ off ≤ 40 ∧ off < 8 + 24
        ∧ mixin_offset 64 8 32 24 = some off) := by
  obtain ⟨o16, e16, g16, b16, d16⟩ :=
    mixin_offset_least 64 8 (2 ^ 64 - 24) 16 (by decide) (by decide) (by decide)
      (Or.inl ⟨3, 4, by decide, by decide, by decide, by decide⟩)
  obtain ⟨o24, e24, g24, b24, d24⟩ :=
    mixin_offset_least 64 8 4112 24 (by decide) (by decide) (by decide) (Or.inr (by decide))
  exact ⟨⟨by decide, by decide, by decide, by decide, by decide, by decide, by decide,
      by decide, by decide, by decide,
      o16, e16, g16.1, g16.2.1, g16.2.2 24 (by decide) (by decide), b16.2,
      d16 4104 (by decide) (by decide)
        (Or.inl ⟨3, 4, by decide, by decide, by decide, by decide⟩) (by decide)⟩,
    ⟨by decide, by decide, by decide, by decide, by decide, by decide, by decide, by decide,
      o24, e24, g24.1, g24.2.1, g24.2.2 40 (by decide) (by decide), b24.2,
      d24 32 (by decide) (by decide) (Or.inr (by decide)) (by decide)⟩⟩

/-- Claim C14 as stated fails on a 64-bit platform with 8-byte pointers.  At the
buffer address 4100, which is not a multiple of 8, the assertion at the head of
the function fails and no offset is returned, whatever the alignment (here 16).
At the buffer address 0 with the alignment 2 ^ 64 - 2 the offset returned is 0,
which is below the pointer size, because 8 + (2 ^ 64 - 2) - 1 wraps around
to 5. -/
theorem mixin_offset_least_counterexample :
    (¬ ∃ off, mixin_offset 64 8 4100 16 = some off
        ∧ (8 ≤ off ∧ 16 ∣ 4100 + off ∧ ∀ k, 8 ≤ k → 16 ∣ 4100 + k → off ≤ k)
        ∧ (8 ≤ off ∧ off < 8 + 16))
      ∧ (¬ ∃ off, mixin_offset 64 8 0 (2 ^ 64 - 2) = some off
        ∧ (8 ≤ off ∧ (2 ^ 64 - 2) ∣ 0 + off
            ∧ ∀ k, 8 ≤ k → (2 ^ 64 - 2) ∣ 0 + k → off ≤ k)
        ∧ (8 ≤ off ∧ off < 8 + (2 ^ 64 - 2))) := by
  have h1 : mixin_offset 64 8 4100 16 = none := by decide
  have h2 : mixin_offset 64 8 0 (2 ^ 64 - 2) = some 0 := by decide
  refine ⟨?_, ?_⟩
  · rintro ⟨off, h, _⟩
    rw [h1] at h
    exact Option.noConfusion h
  · rintro ⟨off, h, _, hge, _⟩
    rw [h2] at h
    have h0 : 0 = off := Option.some.inj h
    omega

end dynamix
